import Mathlib

/-!
# mmlister: directory listing, validation and renderers

A shallow embedding of `src/mmlister.go`.

* The operating system is an input: `FileSystem` bundles the answers of
  `os.Stat`, `ioutil.ReadDir` and `filepath.EvalSymlinks` as functions of the
  path string.  A directory read answers with entries, answers with an error,
  or never returns (opening a named pipe that has no writer blocks).  Nothing
  else is assumed about these answers.
* A Go slice of `FileList` is a `Slice`: the nil slice (`Slice.null`) is kept
  apart from a non-nil slice (`Slice.mk`), because `encoding/json` prints them
  differently.
* `readDirectoryStructure` recurses on the answers of the directory reads, so
  it carries a bound on the nesting of calls; `none` means that the bound was
  used up or that a read never returned, never an error (the Go function has
  no error result).  The Go function returns exactly when some bound gives a
  result.
* Standard output is the list of strings written, one per print call.
-/

namespace Mmlister

/-! ## Data model -/

/-- A Go slice: `null` is the nil slice, `mk xs` a non-nil slice holding `xs`. -/
inductive Slice (α : Type) where
  | null : Slice α
  | mk (elems : List α) : Slice α

/-- The elements a `range` loop over the slice visits. -/
def Slice.elems {α : Type} : Slice α → List α
  | .null => []
  | .mk xs => xs

/-- Go `len`. -/
def Slice.len {α : Type} (s : Slice α) : Nat := s.elems.length

/-- Go `append(s, x)`: the result is never nil. -/
def Slice.append {α : Type} (s : Slice α) (x : α) : Slice α :=
  .mk (s.elems ++ [x])

/-- A `time.Time`, as far as the program can tell two of them apart: the
instant, and the year that `Year()` answers (in the location of the value). -/
structure Time where
  Unix : Int
  Year : Int
deriving DecidableEq

/-- The record `type FileList struct` (lines 15-23), fields in source order;
`int64` is kept as an integer. -/
inductive FileList where
  | mk (ModifiedTime : Time) (IsLink : Bool) (IsDir : Bool) (LinksTo : String)
      (Size : Int) (Name : String) (Children : Slice FileList)

def FileList.ModifiedTime : FileList → Time
  | .mk t _ _ _ _ _ _ => t

def FileList.IsLink : FileList → Bool
  | .mk _ l _ _ _ _ _ => l

def FileList.IsDir : FileList → Bool
  | .mk _ _ d _ _ _ _ => d

def FileList.LinksTo : FileList → String
  | .mk _ _ _ t _ _ _ => t

def FileList.Size : FileList → Int
  | .mk _ _ _ _ s _ _ => s

def FileList.Name : FileList → String
  | .mk _ _ _ _ _ n _ => n

def FileList.Children : FileList → Slice FileList
  | .mk _ _ _ _ _ _ c => c

/-- The bit `os.ModeSymlink` of a `FileMode` (`1 << 27`). -/
def ModeSymlink : Nat := 2 ^ 27

/-- The bit `os.ModeDir` of a `FileMode` (`1 << 31`). -/
def ModeDir : Nat := 2 ^ 31

/-- The bit `os.ModeNamedPipe` of a `FileMode` (`1 << 25`). -/
def ModeNamedPipe : Nat := 2 ^ 25

/-- What an `os.FileInfo` answers to the methods the program calls:
`Name()`, `Size()`, `Mode()`, `ModTime()`, `IsDir()`. -/
structure FileInfo where
  Name : String
  Size : Int
  Mode : Nat
  ModTime : Time
  IsDir : Bool

/-- What a call of `ioutil.ReadDir` does: it returns the entries, or returns
an error, or never returns (the open of a named pipe without a writer). -/
inductive ReadDirResult where
  | ok (files : List FileInfo)
  | error (err : String)
  | blocks

/-- The operating-system calls of the program, as functions of the path.
An error carries the text of `err.Error()`. -/
structure FileSystem where
  Stat : String → Except String FileInfo
  ReadDir : String → ReadDirResult
  EvalSymlinks : String → Except String String

/-- The three display functions, the values of `displayFunctionByFormat`. -/
inductive DisplayFunction where
  | printJson
  | printYaml
  | printText
deriving DecidableEq

/-- The map `displayFunctionByFormat` (lines 26-30). -/
def displayFunctionByFormat : List (String × DisplayFunction) :=
  [("json", .printJson), ("yaml", .printYaml), ("text", .printText)]

/-! ## validateInput (lines 32-54) -/

/-- The function `validateInput`: the validity flag and the collected messages. -/
def validateInput (fs : FileSystem) (path outputFormat : String) : Bool × List String :=
  let errors : List String := []
  let errors :=
    if path = "" then
      errors ++ ["Path must be specified."]
    else
      match fs.Stat path with
      | .error err => errors ++ ["An error occurred while trying to read path: " ++ err]
      | .ok info => if !info.IsDir then errors ++ ["Path must be a directory."] else errors
  let displayFunctionExists := (displayFunctionByFormat.lookup outputFormat).isSome
  let errors :=
    if !displayFunctionExists then
      errors ++ ["Unknown output type \"" ++ outputFormat ++ "\""]
    else errors
  (errors.length == 0, errors)

/-! ## readDirectoryStructure (lines 79-100) -/

/-- The statement `files, _ := ioutil.ReadDir(root)`: the value of `files`
when the call returns, which is the entries read, or no entries when the read
failed (the error is dropped); `none` when the call never returns. -/
def FileSystem.files (fs : FileSystem) (root : String) : Option (List FileInfo) :=
  match fs.ReadDir root with
  | .ok files => some files
  | .error _ => some []
  | .blocks => none

/-- The value of `linkedTo` after `linkedTo, _ = filepath.EvalSymlinks(p)`:
the resolved path, or the empty string that comes with an error. -/
def FileSystem.linkedTo (fs : FileSystem) (p : String) : String :=
  match fs.EvalSymlinks p with
  | .ok target => target
  | .error _ => ""

/-- The body of the loop at lines 82-97 over the remaining `files`, with
`fileList` the slice built so far and `recurse` the recursive call. -/
def readLoop (fs : FileSystem) (recurse : String → Option (Slice FileList))
    (root : String) (recursive : Bool) :
    List FileInfo → Slice FileList → Option (Slice FileList)
  | [], fileList => some fileList
  | f :: rest, fileList =>
    match (if recursive then recurse (root ++ "/" ++ f.Name) else some Slice.null) with
    | none => none
    | some children =>
      let isLink := f.Mode &&& ModeSymlink != 0
      let linkedTo := if isLink then fs.linkedTo (root ++ "/" ++ f.Name) else ""
      let file := FileList.mk f.ModTime isLink f.IsDir linkedTo f.Size f.Name children
      readLoop fs recurse root recursive rest (fileList.append file)

/-- The function `readDirectoryStructure`.  The first argument bounds the
nesting of recursive calls; `none` is returned when it is used up or when a
directory read never returns. -/
def readDirectoryStructure (fs : FileSystem) : Nat → String → Bool → Option (Slice FileList)
  | 0, _, _ => none
  | fuel + 1, root, recursive =>
    match fs.files root with
    | none => none
    | some files =>
      readLoop fs (fun p => readDirectoryStructure fs fuel p recursive) root recursive
        files Slice.null

/-! ## Text renderer (lines 102-122) -/

/-- Go `strings.Repeat` for a non-negative count. -/
def stringsRepeat (s : String) : Nat → String
  | 0 => ""
  | n + 1 => s ++ stringsRepeat s n

/-- The value of `name` at line 119: the entry name with its suffixes. -/
def displayName (f : FileList) : String :=
  let name := f.Name
  let name := if f.IsDir then name ++ "/" else name
  let name := if f.IsLink then name ++ "* (" ++ f.LinksTo ++ ")" else name
  name

mutual
/-- One iteration of the loop of `printAsText`: the line of `f`, then the
recursive call on its children. -/
def printAsTextEntry : FileList → Nat → List String
  | .mk t l d lt s n c, depth =>
    (stringsRepeat "  " depth ++ displayName (.mk t l d lt s n c) ++ "\n")
      :: printAsText c (depth + 1)
/-- The function `printAsText`: the strings written to standard output. -/
def printAsText : Slice FileList → Nat → List String
  | .null, _ => []
  | .mk files, depth => printAsTextLoop files depth
/-- The loop of `printAsText` over the elements of the slice. -/
def printAsTextLoop : List FileList → Nat → List String
  | [], _ => []
  | f :: rest, depth => printAsTextEntry f depth ++ printAsTextLoop rest depth
end

/-- The function `printText`: the path line, then the tree from depth 1. -/
def printText (fs : FileSystem) (fuel : Nat) (path : String) (recursive : Bool) :
    Option (List String) :=
  match readDirectoryStructure fs fuel path recursive with
  | none => none
  | some files => some ((path ++ "\n") :: printAsText files 1)

/-! ## JSON renderer (lines 124-128) -/

/-- A JSON document as a value.  `time` stands for the RFC 3339 string that
`encoding/json` writes for a `time.Time`. -/
inductive JSON where
  | null : JSON
  | bool (b : Bool) : JSON
  | number (n : Int) : JSON
  | string (s : String) : JSON
  | time (t : Time) : JSON
  | array (items : List JSON) : JSON
  | object (members : List (String × JSON)) : JSON

/-- The member of a JSON object with the given key, if any. -/
def JSON.member (key : String) : JSON → Option JSON
  | .object members => members.lookup key
  | _ => none

/-- The years for which `Time.MarshalJSON` succeeds: 0 to 9999. -/
def Time.Encodable (t : Time) : Prop := 0 ≤ t.Year ∧ t.Year ≤ 9999

/-- The method `Time.MarshalJSON`: it fails when the year is outside of the
range 0 to 9999. -/
def marshalTime (t : Time) : Option JSON :=
  if 0 ≤ t.Year ∧ t.Year ≤ 9999 then some (.time t) else none

mutual
/-- The encoding of a `FileList` by `encoding/json`: the struct has no field
tags, so it is an object with one member per exported field, in field order;
`none` when the encoding of a time stamp in it fails. -/
def marshalFileList : FileList → Option JSON
  | .mk t l d lt s n c =>
    match marshalTime t, marshalSlice c with
    | some jt, some jc =>
      some (.object [("ModifiedTime", jt), ("IsLink", .bool l), ("IsDir", .bool d),
        ("LinksTo", .string lt), ("Size", .number s), ("Name", .string n),
        ("Children", jc)])
    | _, _ => none
/-- The encoding of a slice by `encoding/json`: a nil slice encodes as the
JSON value null, any other slice as an array. -/
def marshalSlice : Slice FileList → Option JSON
  | .null => some .null
  | .mk files =>
    match marshalList files with
    | some items => some (.array items)
    | none => none
/-- The encoded elements of a slice. -/
def marshalList : List FileList → Option (List JSON)
  | [] => some []
  | f :: rest =>
    match marshalFileList f, marshalList rest with
    | some j, some js => some (j :: js)
    | _, _ => none
end

/-- What `printJson` writes to standard output. -/
inductive Printed where
  | document (doc : JSON)
  | emptyLine

/-- The function `printJson`: what `fmt.Println(string(jsonOutput))` writes.
When `json.MarshalIndent` fails, line 126 drops the error, `jsonOutput` is nil
and an empty line is written; otherwise the document is written, kept here as
a value (its layout as indented text is not modelled). -/
def printJson (fs : FileSystem) (fuel : Nat) (path : String) (recursive : Bool) :
    Option Printed :=
  match readDirectoryStructure fs fuel path recursive with
  | none => none
  | some files =>
    match marshalSlice files with
    | some doc => some (.document doc)
    | none => some .emptyLine

/-! ## Notions used by the statements -/

/-- The message for an output format that has no display function. -/
def unknownOutputMessage (outputFormat : String) : String :=
  "Unknown output type \"" ++ outputFormat ++ "\""

/-- The output format is one of the three known names. -/
def knownFormat (outputFormat : String) : Prop :=
  outputFormat = "json" ∨ outputFormat = "yaml" ∨ outputFormat = "text"

/-- The path check of `validateInput` fails: the path is empty, or the stat
fails, or the stat reports something that is not a directory. -/
def pathCheckFails (fs : FileSystem) (path : String) : Prop :=
  path = "" ∨ (∃ err, fs.Stat path = .error err) ∨
    (∃ info, fs.Stat path = .ok info ∧ info.IsDir = false)

/-- The paths under `D`: `D` itself, and the path of every entry that the
read of a path under `D` returns. -/
inductive Below (fs : FileSystem) (D : String) : String → Prop where
  | self : Below fs D D
  | child {p : String} {files : List FileInfo} {f : FileInfo} :
      Below fs D p → fs.files p = some files → f ∈ files →
      Below fs D (p ++ "/" ++ f.Name)

/-- Every directory read of a path under `D` returns (with entries or with an
error): no path under `D` is one whose open blocks, such as a named pipe. -/
def ReadsAnswer (fs : FileSystem) (D : String) : Prop :=
  ∀ p, Below fs D p → fs.files p ≠ none

/-- The system refuses the paths under `D` of more than `L` characters: their
read returns no entries.  A limit on the bytes of a path, as every system has
one, gives this limit on its characters. -/
def PathsBounded (fs : FileSystem) (L : Nat) (D : String) : Prop :=
  ∀ p, Below fs D p → L < p.length → fs.files p = some []

/-- Under `D` only directories can be read as directories: the read of the
path of an entry that is not a directory returns no entries.  This excludes a
symbolic link to a directory under `D`. -/
def OnlyDirsRead (fs : FileSystem) (D : String) : Prop :=
  ∀ (p : String) (files : List FileInfo) (f : FileInfo), Below fs D p →
    fs.files p = some files → f ∈ files → f.IsDir = false →
    fs.files (p ++ "/" ++ f.Name) = some []

/-- Under `D` an entry that is neither a directory nor a symbolic link cannot
be read as a directory: the read of its path, if it returns, returns no
entries. -/
def PlainFilesUnread (fs : FileSystem) (D : String) : Prop :=
  ∀ (p : String) (files : List FileInfo) (f : FileInfo), Below fs D p →
    fs.files p = some files → f ∈ files → f.IsDir = false →
    f.Mode &&& ModeSymlink = 0 →
    ∀ l, fs.files (p ++ "/" ++ f.Name) = some l → l = []

/-- Directory reads below `root` return, and give entries at most `n` levels
deep. -/
def ReadsWithin (fs : FileSystem) : Nat → String → Prop
  | 0, _ => False
  | n + 1, root =>
    ∃ files, fs.files root = some files ∧
      ∀ f ∈ files, ReadsWithin fs n (root ++ "/" ++ f.Name)

mutual
/-- Every entry of the tree below `f`, `f` included, with its full path;
`dir` is the directory `f` was read from. -/
def entryPaths : FileList → String → List (String × FileList)
  | .mk t l d lt s n c, dir =>
    (dir ++ "/" ++ n, .mk t l d lt s n c) :: slicePaths c (dir ++ "/" ++ n)
/-- Every entry anywhere in the tree `files` read from `dir`, with its path. -/
def slicePaths : Slice FileList → String → List (String × FileList)
  | .null, _ => []
  | .mk files, dir => listPaths files dir
/-- Every entry anywhere below the listed entries, with its path. -/
def listPaths : List FileList → String → List (String × FileList)
  | [], _ => []
  | f :: rest, dir => entryPaths f dir ++ listPaths rest dir
end

mutual
/-- The entries below `f`, `f` first, in depth-first pre-order, each with the
number of `Children` lists between it and the top-level list, counted from `k`. -/
def preorderEntry : FileList → Nat → List (Nat × FileList)
  | .mk t l d lt s n c, k => (k, .mk t l d lt s n c) :: preorder c (k + 1)
/-- The entries of a tree in depth-first pre-order with their nesting level. -/
def preorder : Slice FileList → Nat → List (Nat × FileList)
  | .null, _ => []
  | .mk files, k => preorderList files k
/-- Pre-order of a list of siblings: the whole subtree of one, then the next. -/
def preorderList : List FileList → Nat → List (Nat × FileList)
  | [], _ => []
  | f :: rest, k => preorderEntry f k ++ preorderList rest k
end

mutual
/-- The number of levels of the subtree at `f`, `f` included. -/
def entryDepth : FileList → Nat
  | .mk _ _ _ _ _ _ c => 1 + treeDepth c
/-- The depth of a tree: the number of levels of entries, 0 for no entries. -/
def treeDepth : Slice FileList → Nat
  | .null => 0
  | .mk files => listDepth files
/-- The largest depth among the listed subtrees. -/
def listDepth : List FileList → Nat
  | [] => 0
  | f :: rest => max (entryDepth f) (listDepth rest)
end

/-- The depth of the directory tree under `root` as the reads report it,
descending only into entries that are directories (`IsDir`): the number of
levels of entries, 0 when `root` has none. -/
def dirDepth (fs : FileSystem) : Nat → String → Nat
  | 0, _ => 0
  | fuel + 1, root =>
    match fs.files root with
    | none => 0
    | some files =>
      (files.map (fun f =>
        1 + (if f.IsDir then dirDepth fs fuel (root ++ "/" ++ f.Name) else 0))).foldr max 0

/-- The filesystem `fs` with the directory at `p` made readable and empty. -/
def FileSystem.withEmptyDir (fs : FileSystem) (p : String) : FileSystem :=
  { fs with ReadDir := fun q => if q = p then .ok [] else fs.ReadDir q }

/-! ## Auxiliary notions for the proofs -/


/-- The slice that a loop of appends builds from the nil slice. -/
def Slice.ofList {α : Type} : List α → Slice α
  | [] => .null
  | x :: xs => .mk (x :: xs)

/-- The record built at line 95 for the directory entry `f` of `root`. -/
def childEntry (fs : FileSystem) (root : String) (f : FileInfo) (children : Slice FileList) :
    FileList :=
  FileList.mk f.ModTime (f.Mode &&& ModeSymlink != 0) f.IsDir
    (if f.Mode &&& ModeSymlink != 0 then fs.linkedTo (root ++ "/" ++ f.Name) else "")
    f.Size f.Name children

/-- The children each entry of `files` gets: the result of the recursive call
on its path when `recursive`, the nil slice otherwise. -/
def ChildrenOf (recurse : String → Option (Slice FileList)) (root : String) (recursive : Bool)
    (files : List FileInfo) (cs : List (Slice FileList)) : Prop :=
  List.Forall₂ (fun f c =>
    if recursive = true then recurse (root ++ "/" ++ f.Name) = some c else c = Slice.null) files cs

/-! ## Example filesystems -/

/-- The scenario of the specification: `root/` holds the file `a.txt` of
size 10 and the directory `b/`, which holds `c.txt` of size 5. -/
def scenarioFs : FileSystem where
  Stat := fun p =>
    if p = "root" then .ok ⟨"root", 4096, ModeDir, ⟨50, 2024⟩, true⟩
    else if p = "root/b" then .ok ⟨"b", 4096, ModeDir, ⟨200, 2024⟩, true⟩
    else if p = "root/a.txt" then .ok ⟨"a.txt", 10, 0, ⟨100, 2024⟩, false⟩
    else if p = "root/b/c.txt" then .ok ⟨"c.txt", 5, 0, ⟨300, 2024⟩, false⟩
    else .error ("stat " ++ p ++ ": no such file or directory")
  ReadDir := fun p =>
    if p = "root" then
      .ok [⟨"a.txt", 10, 0, ⟨100, 2024⟩, false⟩, ⟨"b", 4096, ModeDir, ⟨200, 2024⟩, true⟩]
    else if p = "root/b" then .ok [⟨"c.txt", 5, 0, ⟨300, 2024⟩, false⟩]
    else .error ("readdirent " ++ p ++ ": not a directory")
  EvalSymlinks := fun p => .ok p

/-- The scenario of the specification on a system that has, outside of
`root/`, a directory `other/` holding a symbolic link `bin` to a directory. -/
def mergedFs : FileSystem where
  Stat := fun p =>
    if p = "root" then .ok ⟨"root", 4096, ModeDir, ⟨50, 2024⟩, true⟩
    else .error ("stat " ++ p ++ ": no such file or directory")
  ReadDir := fun p =>
    if p = "root" then
      .ok [⟨"a.txt", 10, 0, ⟨100, 2024⟩, false⟩, ⟨"b", 4096, ModeDir, ⟨200, 2024⟩, true⟩]
    else if p = "root/b" then .ok [⟨"c.txt", 5, 0, ⟨300, 2024⟩, false⟩]
    else if p = "other" then .ok [⟨"bin", 7, ModeSymlink, ⟨400, 2024⟩, false⟩]
    else if p = "other/bin" then .ok [⟨"sh", 900, 0, ⟨500, 2024⟩, false⟩]
    else .error ("readdirent " ++ p ++ ": not a directory")
  EvalSymlinks := fun p => if p = "other/bin" then .ok "/usr/bin" else .ok p

/-- A directory `root/` whose only entry is the symbolic link `L` to the
directory `/srv/data`, which holds the directory `S` with the file `y` in it.
The entry of `L` is what `lstat` reports (a link, not a directory); opening
the path `root/L` follows the link. -/
def linkFs : FileSystem where
  Stat := fun p =>
    if p = "root" then .ok ⟨"root", 4096, ModeDir, ⟨50, 2024⟩, true⟩
    else .error ("stat " ++ p ++ ": no such file or directory")
  ReadDir := fun p =>
    if p = "root" then .ok [⟨"L", 9, ModeSymlink, ⟨100, 2024⟩, false⟩]
    else if p = "root/L" then .ok [⟨"S", 4096, ModeDir, ⟨200, 2024⟩, true⟩]
    else if p = "root/L/S" then .ok [⟨"y", 7, 0, ⟨300, 2024⟩, false⟩]
    else .error ("readdirent " ++ p ++ ": not a directory")
  EvalSymlinks := fun p => if p = "root/L" then .ok "/srv/data" else .ok p

/-- A directory `root/` whose only entry is the symbolic link `up` to `root/`
itself, on a system that follows at most `hops` links while opening one path
and fails with ELOOP beyond that. -/
def loopFs (hops : Nat) : FileSystem where
  Stat := fun p =>
    if p = "root" then .ok ⟨"root", 4096, ModeDir, ⟨50, 2024⟩, true⟩
    else .error ("stat " ++ p ++ ": no such file or directory")
  ReadDir := fun p =>
    if (List.range (hops + 1)).any (fun k => p == "root" ++ stringsRepeat "/up" k) then
      .ok [⟨"up", 1, ModeSymlink, ⟨100, 2024⟩, false⟩]
    else .error ("open " ++ p ++ ": too many levels of symbolic links")
  EvalSymlinks := fun _ => .ok "root"

/-- A directory `root/` holding the directory `docs/` (with the file `n.txt`),
the directory `locked/`, whose read fails, and the file `z.txt`. -/
def lockedFs : FileSystem where
  Stat := fun p =>
    if p = "root" then .ok ⟨"root", 4096, ModeDir, ⟨50, 2024⟩, true⟩
    else .error ("stat " ++ p ++ ": no such file or directory")
  ReadDir := fun p =>
    if p = "root" then
      .ok [⟨"docs", 4096, ModeDir, ⟨100, 2024⟩, true⟩,
        ⟨"locked", 4096, ModeDir, ⟨200, 2024⟩, true⟩, ⟨"z.txt", 3, 0, ⟨300, 2024⟩, false⟩]
    else if p = "root/docs" then .ok [⟨"n.txt", 12, 0, ⟨400, 2024⟩, false⟩]
    else if p = "root/locked" then .error "open root/locked: permission denied"
    else .error ("readdirent " ++ p ++ ": not a directory")
  EvalSymlinks := fun p => .ok p

/-- A directory `root/` holding the directory `locked/`, whose read fails, and
the named pipe `queue`, which no process has opened for writing: the open of
`root/queue` blocks. -/
def pipeFs : FileSystem where
  Stat := fun p =>
    if p = "root" then .ok ⟨"root", 4096, ModeDir, ⟨50, 2024⟩, true⟩
    else .error ("stat " ++ p ++ ": no such file or directory")
  ReadDir := fun p =>
    if p = "root" then
      .ok [⟨"locked", 4096, ModeDir, ⟨200, 2024⟩, true⟩,
        ⟨"queue", 0, ModeNamedPipe, ⟨300, 2024⟩, false⟩]
    else if p = "root/locked" then .error "open root/locked: permission denied"
    else if p = "root/queue" then .blocks
    else .error ("readdirent " ++ p ++ ": not a directory")
  EvalSymlinks := fun p => .ok p

/-- A directory `root/` holding one file whose modification time lies in the
year 10000. -/
def futureFs : FileSystem where
  Stat := fun p =>
    if p = "root" then .ok ⟨"root", 4096, ModeDir, ⟨50, 2024⟩, true⟩
    else .error ("stat " ++ p ++ ": no such file or directory")
  ReadDir := fun p =>
    if p = "root" then .ok [⟨"late.txt", 1, 0, ⟨253402300800, 10000⟩, false⟩]
    else .error ("readdirent " ++ p ++ ": not a directory")
  EvalSymlinks := fun p => .ok p

/-! ## Validation -/

theorem lookup_isSome_iff (outputFormat : String) :
    (displayFunctionByFormat.lookup outputFormat).isSome = true ↔ knownFormat outputFormat := by
  unfold displayFunctionByFormat knownFormat
  by_cases h1 : outputFormat = "json"
  · subst h1; simp [List.lookup]
  · by_cases h2 : outputFormat = "yaml"
    · subst h2; simp [List.lookup]
    · by_cases h3 : outputFormat = "text"
      · subst h3; simp [List.lookup]
      · have e1 : (outputFormat == "json") = false := by simpa using h1
        have e2 : (outputFormat == "yaml") = false := by simpa using h2
        have e3 : (outputFormat == "text") = false := by simpa using h3
        simp [List.lookup, e1, e2, e3, h1, h2, h3]

theorem unknownOutputMessage_head (outputFormat : String) :
    (unknownOutputMessage outputFormat).data.head? = some 'U' := by
  simp [unknownOutputMessage, String.data_append]

theorem readError_head (err : String) :
    ("An error occurred while trying to read path: " ++ err).data.head? = some 'A' := by
  simp [String.data_append]

theorem validateInput_eq (fs : FileSystem) (path outputFormat : String) :
    validateInput fs path outputFormat =
      let pathErrors : List String :=
        if path = "" then ["Path must be specified."]
        else match fs.Stat path with
          | .error err => ["An error occurred while trying to read path: " ++ err]
          | .ok info => if info.IsDir = false then ["Path must be a directory."] else []
      let formatErrors : List String :=
        if (displayFunctionByFormat.lookup outputFormat).isSome = true then []
        else [unknownOutputMessage outputFormat]
      ((pathErrors ++ formatErrors).length == 0, pathErrors ++ formatErrors) := by
  unfold validateInput unknownOutputMessage
  by_cases hp : path = ""
  · by_cases hf : (displayFunctionByFormat.lookup outputFormat).isSome = true <;> simp [hp, hf]
  · cases hs : fs.Stat path with
    | error err =>
      by_cases hf : (displayFunctionByFormat.lookup outputFormat).isSome = true <;> simp [hp, hf, hs]
    | ok info =>
      by_cases hd : info.IsDir = true <;>
      by_cases hf : (displayFunctionByFormat.lookup outputFormat).isSome = true <;>
      simp [hp, hf, hs, hd]


/-! ## Lemmas on the loop and the recursion -/

theorem Slice.elems_ofList {α : Type} (l : List α) : (Slice.ofList l).elems = l := by
  cases l <;> rfl

theorem Slice.foldl_append_elems {α : Type} (l : List α) (acc : Slice α) :
    (l.foldl Slice.append acc).elems = acc.elems ++ l := by
  induction l generalizing acc with
  | nil => simp
  | cons x xs ih =>
    rw [List.foldl_cons, ih]
    simp [Slice.append, Slice.elems]

theorem Slice.foldl_append_null {α : Type} (l : List α) :
    l.foldl Slice.append Slice.null = Slice.ofList l := by
  cases l with
  | nil => rfl
  | cons x xs =>
    have h := Slice.foldl_append_elems xs (Slice.append Slice.null x)
    simp only [List.foldl_cons]
    generalize hr : List.foldl Slice.append (Slice.append Slice.null x) xs = r at h
    have hne : ∀ (ys : List α) (a : Slice α), a ≠ Slice.null →
        List.foldl Slice.append a ys ≠ Slice.null := by
      intro ys
      induction ys with
      | nil => intro a ha; simpa using ha
      | cons y ys ih => intro a _; exact ih _ (by simp [Slice.append])
    cases r with
    | null => exact absurd hr (hne xs _ (by simp [Slice.append]))
    | mk es =>
      simp [Slice.elems, Slice.append] at h
      simp [Slice.ofList, h]

theorem readLoop_iff (fs : FileSystem) (recurse : String → Option (Slice FileList))
    (root : String) (recursive : Bool) (files : List FileInfo) (acc t : Slice FileList) :
    readLoop fs recurse root recursive files acc = some t ↔
      ∃ cs, ChildrenOf recurse root recursive files cs ∧
        t = (List.zipWith (childEntry fs root) files cs).foldl Slice.append acc := by
  induction files generalizing acc with
  | nil =>
    simp only [readLoop, ChildrenOf]
    constructor
    · intro h
      exact ⟨[], List.Forall₂.nil, by simpa using h.symm⟩
    · rintro ⟨cs, hcs, ht⟩
      cases hcs
      simp [ht]
  | cons f rest ih =>
    simp only [readLoop]
    constructor
    · intro h
      cases hc : (if recursive = true then recurse (root ++ "/" ++ f.Name) else some Slice.null) with
      | none => simp [hc] at h
      | some c =>
        simp only [hc] at h
        obtain ⟨cs, hcs, ht⟩ := (ih _).mp h
        refine ⟨c :: cs, List.Forall₂.cons ?_ hcs, ?_⟩
        · cases recursive
          · simpa using hc.symm
          · simpa using hc
        · simpa [childEntry] using ht
    · rintro ⟨cs, hcs, ht⟩
      cases hcs with
      | cons hfc hrest =>
        rename_i c cs
        have hc : (if recursive = true then recurse (root ++ "/" ++ f.Name) else some Slice.null)
            = some c := by
          cases recursive
          · simpa using hfc.symm
          · simpa using hfc
        simp only [hc]
        exact (ih _).mpr ⟨cs, hrest, by simpa [childEntry] using ht⟩

theorem walk_succ_iff (fs : FileSystem) (fuel : Nat) (root : String) (recursive : Bool)
    (t : Slice FileList) :
    readDirectoryStructure fs (fuel + 1) root recursive = some t ↔
      ∃ files cs, fs.files root = some files ∧
        ChildrenOf (fun p => readDirectoryStructure fs fuel p recursive) root recursive
          files cs ∧
        t = Slice.ofList (List.zipWith (childEntry fs root) files cs) := by
  simp only [readDirectoryStructure]
  cases hf : fs.files root with
  | none => simp
  | some files => simp [readLoop_iff, Slice.foldl_append_null]

theorem walk_zero (fs : FileSystem) (root : String) (recursive : Bool) :
    readDirectoryStructure fs 0 root recursive = none := rfl

theorem walk_mono_succ (fs : FileSystem) (recursive : Bool) (n : Nat) :
    ∀ (root : String) (t : Slice FileList),
      readDirectoryStructure fs n root recursive = some t →
      readDirectoryStructure fs (n + 1) root recursive = some t := by
  induction n with
  | zero => intro root t h; simp [walk_zero] at h
  | succ n ih =>
    intro root t h
    obtain ⟨files, cs, hf, hcs, ht⟩ := (walk_succ_iff fs n root recursive t).mp h
    refine (walk_succ_iff fs (n + 1) root recursive t).mpr ⟨files, cs, hf, ?_, ht⟩
    refine List.Forall₂.imp ?_ hcs
    intro f c hfc
    cases recursive
    · simpa using hfc
    · simp only [if_true] at hfc ⊢
      exact ih _ _ hfc

theorem walk_mono (fs : FileSystem) (recursive : Bool) (n m : Nat) (hnm : n ≤ m)
    (root : String) (t : Slice FileList)
    (h : readDirectoryStructure fs n root recursive = some t) :
    readDirectoryStructure fs m root recursive = some t := by
  induction hnm with
  | refl => exact h
  | step _ ih => exact walk_mono_succ fs recursive _ root t ih

theorem exists_forall₂ {α β : Type} (R : α → β → Prop) (l : List α)
    (h : ∀ a ∈ l, ∃ b, R a b) : ∃ bs, List.Forall₂ R l bs := by
  induction l with
  | nil => exact ⟨[], List.Forall₂.nil⟩
  | cons a l ih =>
    obtain ⟨b, hb⟩ := h a (List.mem_cons_self a l)
    obtain ⟨bs, hbs⟩ := ih (fun x hx => h x (List.mem_cons_of_mem a hx))
    exact ⟨b :: bs, List.Forall₂.cons hb hbs⟩

theorem walk_returns (fs : FileSystem) (recursive : Bool) (n : Nat) :
    ∀ root : String, ReadsWithin fs n root →
      ∃ t, readDirectoryStructure fs n root recursive = some t := by
  induction n with
  | zero => intro root h; exact absurd h (by simp [ReadsWithin])
  | succ n ih =>
    intro root h
    simp only [ReadsWithin] at h
    obtain ⟨files, hfiles, h⟩ := h
    have hex : ∀ f ∈ files, ∃ c,
        (if recursive = true then
          readDirectoryStructure fs n (root ++ "/" ++ f.Name) recursive = some c
        else c = Slice.null) := by
      intro f hf
      cases recursive
      · exact ⟨Slice.null, by simp⟩
      · obtain ⟨c, hc⟩ := ih _ (h f hf)
        exact ⟨c, by simpa using hc⟩
    obtain ⟨cs, hcs⟩ := exists_forall₂ _ _ hex
    exact ⟨_, (walk_succ_iff fs n root recursive _).mpr ⟨files, cs, hfiles, hcs, rfl⟩⟩

theorem forall₂_zipWith {α β γ : Type} (Q : α → β → Prop) (R : α → γ → Prop) (g : α → β → γ)
    (hQR : ∀ a b, Q a b → R a (g a b)) (l : List α) (bs : List β)
    (h : List.Forall₂ Q l bs) : List.Forall₂ R l (List.zipWith g l bs) := by
  induction h with
  | nil => exact List.Forall₂.nil
  | cons hab _ ih => exact List.Forall₂.cons (hQR _ _ hab) ih

theorem walk_shape (fs : FileSystem) (fuel : Nat) (root : String) (recursive : Bool)
    (t : Slice FileList) (h : readDirectoryStructure fs fuel root recursive = some t) :
    t = Slice.ofList t.elems ∧ ∃ files, fs.files root = some files ∧ t.len = files.length := by
  cases fuel with
  | zero => simp [walk_zero] at h
  | succ n =>
    obtain ⟨files, cs, hf, hcs, ht⟩ := (walk_succ_iff fs n root recursive t).mp h
    subst ht
    refine ⟨by rw [Slice.elems_ofList], files, hf, ?_⟩
    simp [Slice.len, Slice.elems_ofList, List.length_zipWith, hcs.length_eq]

theorem walk_len_zero (fs : FileSystem) (fuel : Nat) (root : String) (recursive : Bool)
    (t : Slice FileList) (h : readDirectoryStructure fs fuel root recursive = some t)
    (h0 : t.len = 0) : t = Slice.null := by
  obtain ⟨hs, _⟩ := walk_shape fs fuel root recursive t h
  have : t.elems = [] := List.length_eq_zero.mp h0
  rw [hs, this]
  rfl

theorem slicePaths_ofList (l : List FileList) (dir : String) :
    slicePaths (Slice.ofList l) dir = listPaths l dir := by
  cases l <;> simp [Slice.ofList, slicePaths, listPaths]

theorem slicePaths_elems (t : Slice FileList) (dir : String) :
    slicePaths t dir = listPaths t.elems dir := by
  cases t <;> simp [Slice.elems, slicePaths, listPaths]

theorem entryPaths_childEntry (fs : FileSystem) (root : String) (f : FileInfo)
    (c : Slice FileList) :
    entryPaths (childEntry fs root f c) root =
      (root ++ "/" ++ f.Name, childEntry fs root f c) :: slicePaths c (root ++ "/" ++ f.Name) := by
  simp [childEntry, entryPaths]

theorem walk_entries_forall (fs : FileSystem) (recursive : Bool) (D : String)
    (P : String → FileList → Prop)
    (hP : ∀ (fuel : Nat) (p : String) (files : List FileInfo) (f : FileInfo)
      (c : Slice FileList), Below fs D p → fs.files p = some files → f ∈ files →
      (if recursive = true then
        readDirectoryStructure fs fuel (p ++ "/" ++ f.Name) recursive = some c
      else c = Slice.null) → P (p ++ "/" ++ f.Name) (childEntry fs p f c))
    (fuel : Nat) :
    ∀ (root : String) (t : Slice FileList), Below fs D root →
      readDirectoryStructure fs fuel root recursive = some t →
      ∀ pe ∈ slicePaths t root, P pe.1 pe.2 := by
  induction fuel with
  | zero => intro root t _ h; simp [walk_zero] at h
  | succ n ih =>
    intro root t hroot h
    obtain ⟨files, cs, hf, hcs, ht⟩ := (walk_succ_iff fs n root recursive t).mp h
    subst ht
    clear h
    rw [slicePaths_ofList]
    have aux : ∀ (fl : List FileInfo) (cl : List (Slice FileList)),
        ChildrenOf (fun p => readDirectoryStructure fs n p recursive) root recursive fl cl →
        (∀ f ∈ fl, f ∈ files) →
        ∀ pe ∈ listPaths (List.zipWith (childEntry fs root) fl cl) root, P pe.1 pe.2 := by
      intro fl cl hfl
      induction hfl with
      | nil => intro _ pe hpe; simp [listPaths] at hpe
      | @cons f c fl cl hfc _ ih2 =>
        intro hmem pe hpe
        simp only [List.zipWith_cons_cons, listPaths, entryPaths_childEntry, List.mem_append,
          List.mem_cons] at hpe
        have hfmem : f ∈ files := hmem f (List.mem_cons_self _ _)
        rcases hpe with (hpe | hpe) | hpe
        · subst hpe
          exact hP n root files f c hroot hf hfmem hfc
        · cases recursive
          · simp only [Bool.false_eq_true, if_false] at hfc
            subst hfc
            simp [slicePaths] at hpe
          · simp only [if_true] at hfc
            exact ih _ _ (Below.child hroot hf hfmem) hfc pe hpe
        · exact ih2 (fun x hx => hmem x (List.mem_cons_of_mem _ hx)) pe hpe
    exact aux _ _ hcs (fun _ hf => hf)

theorem forall₂_mem {α β : Type} (R : α → β → Prop) (l : List α) (bs : List β)
    (h : List.Forall₂ R l bs) : List.Forall₂ (fun a b => a ∈ l ∧ R a b) l bs := by
  have aux : ∀ l0 : List α, (∀ a ∈ l, a ∈ l0) →
      List.Forall₂ (fun a b => a ∈ l0 ∧ R a b) l bs := by
    induction h with
    | nil => intro _ _; exact List.Forall₂.nil
    | @cons a b l bs hab _ ih =>
      intro l0 hsub
      exact List.Forall₂.cons ⟨hsub a (List.mem_cons_self _ _), hab⟩
        (ih l0 (fun x hx => hsub x (List.mem_cons_of_mem _ hx)))
  exact aux l (fun _ ha => ha)

theorem treeDepth_elems (t : Slice FileList) : treeDepth t = listDepth t.elems := by
  cases t <;> simp [treeDepth, listDepth, Slice.elems]

theorem treeDepth_ofList (l : List FileList) : treeDepth (Slice.ofList l) = listDepth l := by
  rw [treeDepth_elems, Slice.elems_ofList]

theorem entryDepth_childEntry (fs : FileSystem) (root : String) (f : FileInfo)
    (c : Slice FileList) : entryDepth (childEntry fs root f c) = 1 + treeDepth c := by
  simp [childEntry, entryDepth]

theorem listDepth_zipWith (fs : FileSystem) (root : String) (g : FileInfo → Nat)
    (files : List FileInfo) (cs : List (Slice FileList))
    (h : List.Forall₂ (fun f c => treeDepth c = g f) files cs) :
    listDepth (List.zipWith (childEntry fs root) files cs) =
      (files.map (fun f => 1 + g f)).foldr max 0 := by
  induction h with
  | nil => simp [listDepth]
  | @cons f c fl cl hfc _ ih =>
    simp [listDepth, entryDepth_childEntry, hfc, ih]

theorem walk_files_nil (fs : FileSystem) (fuel : Nat) (root : String) (recursive : Bool)
    (t : Slice FileList) (h : readDirectoryStructure fs fuel root recursive = some t)
    (h0 : fs.files root = some []) : t = Slice.null := by
  apply walk_len_zero fs fuel root recursive t h
  obtain ⟨_, files, hf, hlen⟩ := walk_shape fs fuel root recursive t h
  rw [h0] at hf
  cases hf
  exact hlen

theorem walk_len (fs : FileSystem) (fuel : Nat) (root : String) (recursive : Bool)
    (t : Slice FileList) (files : List FileInfo)
    (h : readDirectoryStructure fs fuel root recursive = some t)
    (hf : fs.files root = some files) : t.len = files.length := by
  obtain ⟨_, files2, hf2, hlen⟩ := walk_shape fs fuel root recursive t h
  rw [hf] at hf2
  cases hf2
  exact hlen

theorem walk_depth (fs : FileSystem) (D : String) (hNo : OnlyDirsRead fs D) (n : Nat) :
    ∀ (root : String) (t : Slice FileList), Below fs D root →
      readDirectoryStructure fs n root true = some t →
      treeDepth t = dirDepth fs n root := by
  induction n with
  | zero => intro root t _ h; simp [walk_zero] at h
  | succ n ih =>
    intro root t hroot h
    obtain ⟨files, cs, hf, hcs, ht⟩ := (walk_succ_iff fs n root true t).mp h
    subst ht
    rw [treeDepth_ofList, dirDepth]
    simp only [hf]
    apply listDepth_zipWith
    refine List.Forall₂.imp ?_ (forall₂_mem _ _ _ hcs)
    rintro f c ⟨hfm, hfc⟩
    simp only [if_true] at hfc
    cases hd : f.IsDir
    · have := walk_files_nil fs n _ true c hfc (hNo root files f hroot hf hfm hd)
      simp [this, treeDepth]
    · simpa using ih _ _ (Below.child hroot hf hfm) hfc

theorem readLoop_congr (fs fs2 : FileSystem)
    (hlink : ∀ p, fs.linkedTo p = fs2.linkedTo p)
    (recurse : String → Option (Slice FileList)) (root : String) (recursive : Bool)
    (files : List FileInfo) (acc : Slice FileList) :
    readLoop fs recurse root recursive files acc =
      readLoop fs2 recurse root recursive files acc := by
  induction files generalizing acc with
  | nil => rfl
  | cons f rest ih =>
    simp only [readLoop, hlink, ih]

theorem walk_congr (fs fs2 : FileSystem) (hfiles : ∀ p, fs.files p = fs2.files p)
    (hlink : ∀ p, fs.linkedTo p = fs2.linkedTo p) (recursive : Bool) (fuel : Nat) :
    ∀ root : String, readDirectoryStructure fs fuel root recursive =
      readDirectoryStructure fs2 fuel root recursive := by
  induction fuel with
  | zero => intro root; rfl
  | succ n ih =>
    intro root
    have hrec : (fun p => readDirectoryStructure fs n p recursive) =
        (fun p => readDirectoryStructure fs2 n p recursive) := funext ih
    simp only [readDirectoryStructure, hrec, hfiles]
    cases fs2.files root with
    | none => rfl
    | some files => exact readLoop_congr fs fs2 hlink _ _ _ _ _

theorem withEmptyDir_files (fs : FileSystem) (p err : String)
    (h : fs.ReadDir p = .error err) (q : String) :
    fs.files q = (fs.withEmptyDir p).files q := by
  by_cases hq : q = p
  · subst hq
    simp [FileSystem.files, FileSystem.withEmptyDir, h]
  · simp [FileSystem.files, FileSystem.withEmptyDir, hq]

theorem withEmptyDir_linkedTo (fs : FileSystem) (p q : String) :
    fs.linkedTo q = (fs.withEmptyDir p).linkedTo q := rfl

theorem child_length (p name : String) : p.length + 1 ≤ (p ++ "/" ++ name).length := by
  simp only [String.length_append]
  have : "/".length = 1 := rfl
  omega

theorem readsWithin_of_bounded (fs : FileSystem) (L : Nat) (D : String)
    (hAns : ReadsAnswer fs D) (hL : PathsBounded fs L D) (k : Nat) :
    ∀ p : String, Below fs D p → L + 1 ≤ p.length + k → ReadsWithin fs (k + 1) p := by
  induction k with
  | zero =>
    intro p hp hlen
    exact ⟨[], hL p hp (by omega), fun f hf => absurd hf (List.not_mem_nil f)⟩
  | succ k ih =>
    intro p hp hlen
    cases hf : fs.files p with
    | none => exact absurd hf (hAns p hp)
    | some files =>
      refine ⟨files, hf, fun f hfm => ?_⟩
      have hc := child_length p f.Name
      exact ih _ (Below.child hp hf hfm) (by omega)

theorem walk_returns_of_bounded (fs : FileSystem) (L : Nat) (D : String)
    (hAns : ReadsAnswer fs D) (hL : PathsBounded fs L D) (recursive : Bool) :
    ∃ t, readDirectoryStructure fs (L + 2) D recursive = some t :=
  walk_returns fs recursive (L + 2) D
    (readsWithin_of_bounded fs L D hAns hL (L + 1) D Below.self (by omega))

theorem forall₂_exists_of_mem {α β : Type} (R : α → β → Prop) (l : List α) (bs : List β)
    (h : List.Forall₂ R l bs) (a : α) (ha : a ∈ l) : ∃ b ∈ bs, R a b := by
  induction h with
  | nil => simp at ha
  | @cons x y l bs hxy _ ih =>
    rcases List.mem_cons.mp ha with hax | hal
    · subst hax
      exact ⟨y, List.mem_cons_self _ _, hxy⟩
    · obtain ⟨b, hb, hr⟩ := ih hal
      exact ⟨b, List.mem_cons_of_mem _ hb, hr⟩

/-! ## The claims on validation -/

/-- C1: `validateInput` runs the path check and the format check independently
and collects every failure.  The first message is the path message whenever the
path check fails (empty path, failed stat, not a directory); the last message is
`Unknown output type "<format>"` whenever the format is not json, yaml or text;
when both checks fail the result is false with exactly two distinct messages,
the path message first; for the empty path and an unknown format these are
`Path must be specified.` and `Unknown output type "<format>"`. -/
theorem validateInput_collects (fs : FileSystem) (path outputFormat : String) :
    (path = "" →
      (validateInput fs path outputFormat).2.head? = some "Path must be specified.") ∧
    (∀ err, path ≠ "" → fs.Stat path = .error err →
      (validateInput fs path outputFormat).2.head? =
        some ("An error occurred while trying to read path: " ++ err)) ∧
    (∀ info, path ≠ "" → fs.Stat path = .ok info → info.IsDir = false →
      (validateInput fs path outputFormat).2.head? = some "Path must be a directory.") ∧
    (¬ knownFormat outputFormat →
      (validateInput fs path outputFormat).2.getLast? =
        some ("Unknown output type \"" ++ outputFormat ++ "\"")) ∧
    (pathCheckFails fs path → ¬ knownFormat outputFormat →
      ∃ m, m ≠ "Unknown output type \"" ++ outputFormat ++ "\"" ∧
        validateInput fs path outputFormat =
          (false, [m, "Unknown output type \"" ++ outputFormat ++ "\""])) ∧
    (¬ knownFormat outputFormat →
      validateInput fs "" outputFormat =
        (false, ["Path must be specified.", "Unknown output type \"" ++ outputFormat ++ "\""])) := by
  have hl := lookup_isSome_iff outputFormat
  have hU := unknownOutputMessage_head outputFormat
  have hne1 : "Path must be specified." ≠ unknownOutputMessage outputFormat := by
    intro h
    have := congrArg (fun s => s.data.head?) h
    simp only [hU] at this
    exact absurd this (by decide)
  have hne2 : "Path must be a directory." ≠ unknownOutputMessage outputFormat := by
    intro h
    have := congrArg (fun s => s.data.head?) h
    simp only [hU] at this
    exact absurd this (by decide)
  have hne3 : ∀ err, "An error occurred while trying to read path: " ++ err ≠
      unknownOutputMessage outputFormat := by
    intro err h
    have := congrArg (fun s => s.data.head?) h
    simp only [hU, readError_head] at this
    exact absurd this (by decide)
  change _ ∧ _ ∧ _ ∧ (_ → _ = some (unknownOutputMessage outputFormat)) ∧
    (_ → _ → ∃ m, m ≠ unknownOutputMessage outputFormat ∧
      _ = (false, [m, unknownOutputMessage outputFormat])) ∧
    (_ → _ = (false, [_, unknownOutputMessage outputFormat]))
  refine ⟨?_, ?_, ?_, ?_, ?_, ?_⟩
  · intro hp
    rw [validateInput_eq]
    simp [hp]
  · intro err hp hs
    rw [validateInput_eq]
    simp [hp, hs]
  · intro info hp hs hd
    rw [validateInput_eq]
    simp [hp, hs, hd]
  · intro hk
    have hf : ¬ (displayFunctionByFormat.lookup outputFormat).isSome = true := mt hl.mp hk
    rw [validateInput_eq]
    simp [hf]
  · intro hfail hk
    have hf : ¬ (displayFunctionByFormat.lookup outputFormat).isSome = true := mt hl.mp hk
    rw [validateInput_eq]
    rcases hfail with hp | ⟨err, hs⟩ | ⟨info, hs, hd⟩
    · exact ⟨_, hne1, by simp [hp, hf]⟩
    · by_cases hp : path = ""
      · exact ⟨_, hne1, by simp [hp, hf]⟩
      · exact ⟨_, hne3 err, by simp [hp, hf, hs]⟩
    · by_cases hp : path = ""
      · exact ⟨_, hne1, by simp [hp, hf]⟩
      · exact ⟨_, hne2, by simp [hp, hf, hs, hd]⟩
  · intro hk
    have hf : ¬ (displayFunctionByFormat.lookup outputFormat).isSome = true := mt hl.mp hk
    rw [validateInput_eq]
    simp [hf]

/-- C1 at the input of the specification: the empty path with the format `xml`
gives false and the two messages, which differ. -/
theorem validateInput_collects_witness :
    ¬ knownFormat "xml" ∧
    validateInput scenarioFs "" "xml" =
      (false, ["Path must be specified.", "Unknown output type \"xml\""]) ∧
    "Path must be specified." ≠ "Unknown output type \"xml\"" :=
  have hk : ¬ knownFormat "xml" := by simp [knownFormat]
  ⟨hk, (validateInput_collects scenarioFs "" "xml").2.2.2.2.2 hk, by decide⟩

/-- C2: `validateInput` returns true exactly when the path is not empty, the
stat of the path succeeds and reports a directory, and the format name is one of
`json`, `yaml`, `text`; and it returns true exactly when it returns no message. -/
theorem validateInput_true_iff (fs : FileSystem) (path outputFormat : String) :
    ((validateInput fs path outputFormat).1 = true ↔
      (path ≠ "" ∧ (∃ info, fs.Stat path = .ok info ∧ info.IsDir = true) ∧
        (outputFormat = "json" ∨ outputFormat = "yaml" ∨ outputFormat = "text"))) ∧
    ((validateInput fs path outputFormat).1 = true ↔
      (validateInput fs path outputFormat).2 = []) := by
  have hl := lookup_isSome_iff outputFormat
  unfold knownFormat at hl
  rw [validateInput_eq]
  by_cases hp : path = ""
  · by_cases hf : (displayFunctionByFormat.lookup outputFormat).isSome = true <;> simp [hp, hf]
  · cases hs : fs.Stat path with
    | error err =>
      by_cases hf : (displayFunctionByFormat.lookup outputFormat).isSome = true <;>
        simp [hp, hf, hs]
    | ok info =>
      by_cases hd : info.IsDir = true
      · by_cases hf : (displayFunctionByFormat.lookup outputFormat).isSome = true
        · simp [hp, hf, hs, hd, hl.mp hf]
        · have := mt hl.mpr hf
          simp [hp, hf, hs, hd, this]
      · by_cases hf : (displayFunctionByFormat.lookup outputFormat).isSome = true <;>
          simp [hp, hf, hs, hd]

/-! ## The claims on the tree builder -/

/-- C3: for every directory `D` whose read succeeds, `readDirectoryStructure D false`
returns exactly one entry per entry read, in the order read, each with the name,
size, modification time and `IsDir` flag of that entry, and with no children. -/
theorem readDirectoryStructure_flat (fs : FileSystem) (fuel : Nat) (D : String)
    (files : List FileInfo) (hD : fs.ReadDir D = .ok files) :
    ∃ t, readDirectoryStructure fs (fuel + 1) D false = some t ∧
      t.len = files.length ∧
      List.Forall₂ (fun f e => e.Name = f.Name ∧ e.Size = f.Size ∧
        e.ModifiedTime = f.ModTime ∧ e.IsDir = f.IsDir ∧ e.Children.len = 0) files t.elems := by
  have hfiles : fs.files D = some files := by simp [FileSystem.files, hD]
  have hex : ∀ f ∈ files, ∃ c : Slice FileList,
      (if false = true then
        readDirectoryStructure fs fuel (D ++ "/" ++ f.Name) false = some c
      else c = Slice.null) := fun f _ => ⟨Slice.null, by simp⟩
  obtain ⟨cs, hcs⟩ := exists_forall₂ _ _ hex
  have ht := (walk_succ_iff fs fuel D false _).mpr ⟨files, cs, hfiles, hcs, rfl⟩
  refine ⟨_, ht, ?_, ?_⟩
  · exact walk_len fs _ D false _ files ht hfiles
  · rw [Slice.elems_ofList]
    refine forall₂_zipWith _ _ _ ?_ _ _ hcs
    intro f c hfc
    simp only [Bool.false_eq_true, if_false] at hfc
    subst hfc
    simp [childEntry, FileList.Name, FileList.Size, FileList.ModifiedTime, FileList.IsDir,
      FileList.Children, Slice.len, Slice.elems]

/-- C3 on the scenario of the specification: two entries, `a.txt` of size 10
and the directory `b`, neither with children. -/
theorem readDirectoryStructure_flat_witness :
    scenarioFs.ReadDir "root" =
      .ok [⟨"a.txt", 10, 0, ⟨100, 2024⟩, false⟩, ⟨"b", 4096, ModeDir, ⟨200, 2024⟩, true⟩] ∧
    ∃ t, readDirectoryStructure scenarioFs 1 "root" false = some t ∧
      t.len = 2 ∧
      List.Forall₂ (fun f e => e.Name = f.Name ∧ e.Size = f.Size ∧
        e.ModifiedTime = f.ModTime ∧ e.IsDir = f.IsDir ∧ e.Children.len = 0)
        [(⟨"a.txt", 10, 0, ⟨100, 2024⟩, false⟩ : FileInfo),
          ⟨"b", 4096, ModeDir, ⟨200, 2024⟩, true⟩] t.elems :=
  ⟨rfl, readDirectoryStructure_flat scenarioFs 0 "root" _ rfl⟩

theorem below_mergedFs (p : String) (h : Below mergedFs "root" p) :
    p = "root" ∨ p = "root/a.txt" ∨ p = "root/b" ∨ p = "root/b/c.txt" := by
  induction h with
  | self => exact Or.inl rfl
  | @child q files f _ hf hfm ih =>
    rcases ih with rfl | rfl | rfl | rfl
    · obtain rfl : [(⟨"a.txt", 10, 0, ⟨100, 2024⟩, false⟩ : FileInfo),
          ⟨"b", 4096, ModeDir, ⟨200, 2024⟩, true⟩] = files := Option.some.inj hf
      simp only [List.mem_cons, List.mem_singleton, List.not_mem_nil, or_false] at hfm
      rcases hfm with rfl | rfl
      · exact Or.inr (Or.inl rfl)
      · exact Or.inr (Or.inr (Or.inl rfl))
    · obtain rfl : ([] : List FileInfo) = files := Option.some.inj hf
      simp at hfm
    · obtain rfl : [(⟨"c.txt", 5, 0, ⟨300, 2024⟩, false⟩ : FileInfo)] = files :=
        Option.some.inj hf
      simp only [List.mem_singleton] at hfm
      subst hfm
      exact Or.inr (Or.inr (Or.inr rfl))
    · obtain rfl : ([] : List FileInfo) = files := Option.some.inj hf
      simp at hfm

theorem mergedFs_answers : ReadsAnswer mergedFs "root" := by
  intro p _
  simp only [FileSystem.files, mergedFs]
  split_ifs <;> simp

theorem mergedFs_bounded : PathsBounded mergedFs 12 "root" := by
  intro p hp hlen
  rcases below_mergedFs p hp with rfl | rfl | rfl | rfl
  · exact absurd hlen (by decide)
  · rfl
  · exact absurd hlen (by decide)
  · rfl

theorem mergedFs_onlyDirs : OnlyDirsRead mergedFs "root" := by
  intro p files f hp hf hfm hd
  rcases below_mergedFs p hp with rfl | rfl | rfl | rfl
  · obtain rfl : [(⟨"a.txt", 10, 0, ⟨100, 2024⟩, false⟩ : FileInfo),
        ⟨"b", 4096, ModeDir, ⟨200, 2024⟩, true⟩] = files := Option.some.inj hf
    simp only [List.mem_cons, List.mem_singleton, List.not_mem_nil, or_false] at hfm
    rcases hfm with rfl | rfl
    · rfl
    · simp at hd
  · obtain rfl : ([] : List FileInfo) = files := Option.some.inj hf
    simp at hfm
  · obtain rfl : [(⟨"c.txt", 5, 0, ⟨300, 2024⟩, false⟩ : FileInfo)] = files :=
      Option.some.inj hf
    simp only [List.mem_singleton] at hfm
    subst hfm
    rfl
  · obtain rfl : ([] : List FileInfo) = files := Option.some.inj hf
    simp at hfm

/-- C4, amended: let every directory read of a path under `D` return, let the
system refuse the paths of more than `L` characters, and let only directories
under `D` be readable as directories (no symbolic link to a directory under
`D`).  Then `readDirectoryStructure D true` returns a tree whose depth is the
depth of the directory tree under `D`, and the `Children` of every entry of the
tree are as many as the entries that the read of its path returns (none when
that read fails, as for an unreadable directory). -/
theorem recursive_depth_and_counts (fs : FileSystem) (L : Nat) (D : String)
    (hAns : ReadsAnswer fs D) (hL : PathsBounded fs L D) (hNo : OnlyDirsRead fs D) :
    ∃ t, (∀ m, L + 2 ≤ m → readDirectoryStructure fs m D true = some t ∧
        treeDepth t = dirDepth fs m D) ∧
      ∀ pe ∈ slicePaths t D,
        ∃ files, fs.files pe.1 = some files ∧ pe.2.Children.len = files.length := by
  obtain ⟨t, ht⟩ := walk_returns_of_bounded fs L D hAns hL true
  refine ⟨t, ?_, ?_⟩
  · intro m hm
    have htm := walk_mono fs true _ m hm D t ht
    exact ⟨htm, walk_depth fs D hNo m D t Below.self htm⟩
  · refine walk_entries_forall fs true D
      (fun p e => ∃ files, fs.files p = some files ∧ e.Children.len = files.length)
      ?_ _ D t Below.self ht
    intro fuel p files f c _ _ _ hc
    simp only [if_true] at hc
    exact (walk_shape fs fuel _ true c hc).2

/-- C4 on the scenario of the specification, on a system that has a symbolic
link to a directory outside of `root/`: two levels of entries, `b` with one
child. -/
theorem recursive_depth_and_counts_witness :
    ReadsAnswer mergedFs "root" ∧ PathsBounded mergedFs 12 "root" ∧
    OnlyDirsRead mergedFs "root" ∧
    dirDepth mergedFs 14 "root" = 2 ∧
    ∃ t, (∀ m, 12 + 2 ≤ m → readDirectoryStructure mergedFs m "root" true = some t ∧
        treeDepth t = dirDepth mergedFs m "root") ∧
      ∀ pe ∈ slicePaths t "root",
        ∃ files, mergedFs.files pe.1 = some files ∧ pe.2.Children.len = files.length :=
  ⟨mergedFs_answers, mergedFs_bounded, mergedFs_onlyDirs, by decide,
    recursive_depth_and_counts mergedFs 12 "root" mergedFs_answers mergedFs_bounded
      mergedFs_onlyDirs⟩

/-- C4 fails as stated: `root/` is a directory with no subdirectory at all,
only a symbolic link to a directory elsewhere, so the directory tree under
`root/` has one level of entries, however far one looks; the tree returned for
it has three levels. -/
theorem recursive_depth_counterexample :
    (∃ info, linkFs.Stat "root" = .ok info ∧ info.IsDir = true) ∧
    (linkFs.files "root").map (fun l => l.map (fun f => (f.Name, f.IsDir))) =
      some [("L", false)] ∧
    (readDirectoryStructure linkFs 4 "root" true).map treeDepth = some 3 ∧
    dirDepth linkFs 4 "root" = 1 ∧
    (∀ m, dirDepth linkFs (m + 1) "root" = 1) :=
  ⟨⟨_, rfl, rfl⟩, by decide, by decide, by decide, fun _ => rfl⟩

theorem linkFs_plainFilesUnread : PlainFilesUnread linkFs "root" := by
  intro p files f _ hf hfm hd hm l hl
  by_cases h1 : p = "root"
  · subst h1
    obtain rfl : [(⟨"L", 9, ModeSymlink, ⟨100, 2024⟩, false⟩ : FileInfo)] = files :=
      Option.some.inj hf
    simp only [List.mem_singleton] at hfm
    subst hfm
    exact absurd hm (by decide)
  · by_cases h2 : p = "root/L"
    · subst h2
      obtain rfl : [(⟨"S", 4096, ModeDir, ⟨200, 2024⟩, true⟩ : FileInfo)] = files :=
        Option.some.inj hf
      simp only [List.mem_singleton] at hfm
      subst hfm
      simp at hd
    · by_cases h3 : p = "root/L/S"
      · subst h3
        obtain rfl : [(⟨"y", 7, 0, ⟨300, 2024⟩, false⟩ : FileInfo)] = files :=
          Option.some.inj hf
        simp only [List.mem_singleton] at hfm
        subst hfm
        exact (Option.some.inj hl).symm
      · simp [FileSystem.files, linkFs, h1, h2, h3] at hf
        subst hf
        simp at hfm

/-- C5, amended: on a filesystem where an entry that is neither a directory
nor a symbolic link cannot be read as a directory, every entry anywhere in the
tree returned by `readDirectoryStructure root recursive` has children only if
`recursive` is true and the entry is a directory or a symbolic link; an entry
that is neither has none.  With `recursive` true the children of every entry,
a link included, are as many as the entries that the read of its own path (the
directory it was read from, a slash, its name) returns, so the entry of a link
to a directory that is not empty has children though its `IsDir` is false. -/
theorem children_only_of_dirs_and_links (fs : FileSystem) (fuel : Nat) (root : String)
    (recursive : Bool) (t : Slice FileList) (hPlain : PlainFilesUnread fs root)
    (h : readDirectoryStructure fs fuel root recursive = some t) :
    ∀ pe ∈ slicePaths t root,
      (pe.2.Children.len ≠ 0 →
        recursive = true ∧ (pe.2.IsDir = true ∨ pe.2.IsLink = true)) ∧
      (pe.2.IsDir = false → pe.2.IsLink = false → pe.2.Children.len = 0) ∧
      (recursive = false → pe.2.Children.len = 0) ∧
      (recursive = true →
        ∃ files, fs.files pe.1 = some files ∧ pe.2.Children.len = files.length) := by
  refine walk_entries_forall fs recursive root
    (fun p e =>
      (e.Children.len ≠ 0 → recursive = true ∧ (e.IsDir = true ∨ e.IsLink = true)) ∧
      (e.IsDir = false → e.IsLink = false → e.Children.len = 0) ∧
      (recursive = false → e.Children.len = 0) ∧
      (recursive = true → ∃ files, fs.files p = some files ∧ e.Children.len = files.length))
    ?_ fuel root t Below.self h
  intro fuel p files f c hp hf hfm hc
  cases recursive
  · simp only [Bool.false_eq_true, if_false] at hc
    subst hc
    simp [childEntry, FileList.Children, Slice.len, Slice.elems]
  · simp only [if_true] at hc
    obtain ⟨_, l, hl, hlen⟩ := walk_shape fs fuel _ true c hc
    have hplain : f.IsDir = false → (f.Mode &&& ModeSymlink != 0) = false → c.len = 0 := by
      intro hd hm
      have hm0 : f.Mode &&& ModeSymlink = 0 := by simpa using hm
      rw [hlen, hPlain p files f hp hf hfm hd hm0 l hl]
      rfl
    refine ⟨fun hne => ⟨rfl, ?_⟩, hplain, fun hr => by simp at hr, fun _ => ⟨l, hl, hlen⟩⟩
    change f.IsDir = true ∨ (f.Mode &&& ModeSymlink != 0) = true
    cases hd : f.IsDir
    · cases hm : (f.Mode &&& ModeSymlink != 0)
      · exact absurd (hplain hd hm) hne
      · exact Or.inr rfl
    · exact Or.inl rfl

/-- C5 on a directory holding a symbolic link to a directory, read
recursively. -/
theorem children_only_of_dirs_and_links_witness :
    PlainFilesUnread linkFs "root" ∧
    readDirectoryStructure linkFs 4 "root" true =
      some (.mk [.mk ⟨100, 2024⟩ true false "/srv/data" 9 "L"
        (.mk [.mk ⟨200, 2024⟩ false true "" 4096 "S"
          (.mk [.mk ⟨300, 2024⟩ false false "" 7 "y" .null])])]) ∧
    ∀ pe ∈ slicePaths (.mk [.mk ⟨100, 2024⟩ true false "/srv/data" 9 "L"
        (.mk [.mk ⟨200, 2024⟩ false true "" 4096 "S"
          (.mk [.mk ⟨300, 2024⟩ false false "" 7 "y" .null])])]) "root",
      (pe.2.Children.len ≠ 0 →
        true = true ∧ (pe.2.IsDir = true ∨ pe.2.IsLink = true)) ∧
      (pe.2.IsDir = false → pe.2.IsLink = false → pe.2.Children.len = 0) ∧
      (true = false → pe.2.Children.len = 0) ∧
      (true = true →
        ∃ files, linkFs.files pe.1 = some files ∧ pe.2.Children.len = files.length) :=
  ⟨linkFs_plainFilesUnread, rfl,
    children_only_of_dirs_and_links linkFs 4 "root" true _ linkFs_plainFilesUnread rfl⟩

/-- C5 fails as stated: the entry of a symbolic link to a directory has
`IsDir` false and the entries of that directory as children. -/
theorem children_only_from_reads_counterexample :
    ∃ t, readDirectoryStructure linkFs 4 "root" true = some t ∧
      ∃ pe ∈ slicePaths t "root",
        pe.1 = "root/L" ∧ pe.2.IsLink = true ∧ pe.2.IsDir = false ∧ pe.2.Children.len = 1 :=
  ⟨.mk [.mk ⟨100, 2024⟩ true false "/srv/data" 9 "L"
      (.mk [.mk ⟨200, 2024⟩ false true "" 4096 "S"
        (.mk [.mk ⟨300, 2024⟩ false false "" 7 "y" .null])])],
    rfl,
    ("root/L", .mk ⟨100, 2024⟩ true false "/srv/data" 9 "L"
      (.mk [.mk ⟨200, 2024⟩ false true "" 4096 "S"
        (.mk [.mk ⟨300, 2024⟩ false false "" 7 "y" .null])])),
    by simp [slicePaths, listPaths, entryPaths], rfl, rfl, rfl, rfl⟩

theorem walk_blocked (fs : FileSystem) (fuel : Nat) (root : String) (recursive : Bool)
    (h : fs.files root = none) : readDirectoryStructure fs fuel root recursive = none := by
  cases fuel with
  | zero => rfl
  | succ n => simp [readDirectoryStructure, h]

theorem walk_children_return (fs : FileSystem) (fuel : Nat) (root : String)
    (t : Slice FileList) (files : List FileInfo)
    (h : readDirectoryStructure fs (fuel + 1) root true = some t)
    (hf : fs.files root = some files) (f : FileInfo) (hfm : f ∈ files) :
    ∃ c, readDirectoryStructure fs fuel (root ++ "/" ++ f.Name) true = some c := by
  obtain ⟨files2, cs, hf2, hcs, _⟩ := (walk_succ_iff fs fuel root true t).mp h
  rw [hf] at hf2
  cases hf2
  obtain ⟨c, _, hc⟩ := forall₂_exists_of_mem _ _ _ hcs f hfm
  exact ⟨c, by simpa using hc⟩

theorem pipeFs_never_returns (fuel : Nat) :
    readDirectoryStructure pipeFs fuel "root" true = none := by
  cases fuel with
  | zero => rfl
  | succ n =>
    cases h : readDirectoryStructure pipeFs (n + 1) "root" true with
    | none => rfl
    | some t =>
      obtain ⟨c, hc⟩ := walk_children_return pipeFs n "root" t _ h rfl
        ⟨"queue", 0, ModeNamedPipe, ⟨300, 2024⟩, false⟩ (by simp)
      have hq : pipeFs.files "root/queue" = none := rfl
      have hb := walk_blocked pipeFs n "root/queue" true hq
      have hc2 : readDirectoryStructure pipeFs n "root/queue" true = some c := hc
      rw [hb] at hc2
      cases hc2

theorem stringsRepeat_length (s : String) (k : Nat) :
    (stringsRepeat s k).length = k * s.length := by
  induction k with
  | zero => simp [stringsRepeat]
  | succ n ih =>
    rw [stringsRepeat, String.length_append, ih]
    ring

theorem loopFs_answers (hops : Nat) : ReadsAnswer (loopFs hops) "root" := by
  intro p _
  simp only [FileSystem.files, loopFs]
  split_ifs <;> simp

theorem loopFs_bounded (hops : Nat) : PathsBounded (loopFs hops) (4 + 3 * hops) "root" := by
  intro p _ hlen
  have hno : ¬ ((List.range (hops + 1)).any
      (fun k => p == "root" ++ stringsRepeat "/up" k) = true) := by
    intro hany
    obtain ⟨k, hk, hpk⟩ := List.any_eq_true.mp hany
    have hp : p = "root" ++ stringsRepeat "/up" k := by simpa using hpk
    have hk2 : k < hops + 1 := List.mem_range.mp hk
    have hl : p.length = 4 + k * 3 := by
      rw [hp, String.length_append, stringsRepeat_length]
      rfl
    omega
  simp only [FileSystem.files, loopFs, hno]
  rfl

/-- C6, amended: the recursive walk calls the directory read on the path of
every child, whatever its kind, also on a symbolic link, and takes the result
of the walk of that path as the children of the entry.  When every directory
read of a path under `root` returns and the system refuses the paths of more
than `L` characters, `readDirectoryStructure root true` returns a tree, the same
for every bound on the nesting of calls from `L + 2` on; this holds also when a
link points back to an ancestor directory. -/
theorem walk_returns_on_bounded_paths (fs : FileSystem) (L : Nat) (root : String)
    (hAns : ReadsAnswer fs root) (hL : PathsBounded fs L root) :
    ∃ t files, fs.files root = some files ∧
      (∀ m, L + 2 ≤ m → readDirectoryStructure fs m root true = some t) ∧
      List.Forall₂ (fun f e => e.Name = f.Name ∧ e.IsDir = f.IsDir ∧
        e.IsLink = (f.Mode &&& ModeSymlink != 0) ∧
        readDirectoryStructure fs (L + 1) (root ++ "/" ++ f.Name) true = some e.Children)
        files t.elems := by
  obtain ⟨t, ht⟩ := walk_returns_of_bounded fs L root hAns hL true
  obtain ⟨files, cs, hf, hcs, hts⟩ := (walk_succ_iff fs (L + 1) root true t).mp ht
  refine ⟨t, files, hf, fun m hm => walk_mono fs true _ m hm root t ht, ?_⟩
  subst hts
  rw [Slice.elems_ofList]
  refine forall₂_zipWith _ _ _ ?_ _ _ hcs
  intro f c hfc
  simp only [if_true] at hfc
  exact ⟨rfl, rfl, rfl, hfc⟩

/-- C6 on a directory whose only entry is a symbolic link back to the
directory itself, on a system that follows at most 40 links in a path. -/
theorem walk_returns_on_bounded_paths_witness :
    ReadsAnswer (loopFs 40) "root" ∧ PathsBounded (loopFs 40) 124 "root" ∧
    ∃ t files, (loopFs 40).files "root" = some files ∧
      (∀ m, 124 + 2 ≤ m → readDirectoryStructure (loopFs 40) m "root" true = some t) ∧
      List.Forall₂ (fun f e => e.Name = f.Name ∧ e.IsDir = f.IsDir ∧
        e.IsLink = (f.Mode &&& ModeSymlink != 0) ∧
        readDirectoryStructure (loopFs 40) (124 + 1) ("root" ++ "/" ++ f.Name) true =
          some e.Children)
        files t.elems :=
  ⟨loopFs_answers 40, loopFs_bounded 40,
    walk_returns_on_bounded_paths (loopFs 40) 124 "root" (loopFs_answers 40)
      (loopFs_bounded 40)⟩

set_option maxRecDepth 8000 in
/-- C6 fails as stated, in both halves.  In a directory whose only entry is a
symbolic link back to the directory itself, the walk reads the directory
through the link again and again, and stops only when the system refuses the
path (after 40 links): the entry of the link has a child, and the tree has 41
levels.  And in a directory that holds a named pipe, with no link at all, the
walk never returns: it opens the pipe as it opens every child. -/
theorem walk_through_symlink_counterexample :
    ((loopFs 40).files "root" = some [⟨"up", 1, ModeSymlink, ⟨100, 2024⟩, false⟩] ∧
      (readDirectoryStructure (loopFs 40) 42 "root" true).map
        (fun t => t.elems.map (fun e => (e.Name, e.IsLink, e.IsDir, e.Children.len))) =
          some [("up", true, false, 1)] ∧
      (readDirectoryStructure (loopFs 40) 42 "root" true).map treeDepth = some 41) ∧
    ((pipeFs.files "root").map (fun l => l.map (fun f => (f.Name, f.IsDir,
        f.Mode &&& ModeSymlink != 0))) =
        some [("locked", true, false), ("queue", false, false)] ∧
      pipeFs.ReadDir "root/queue" = .blocks ∧
      ∀ fuel, readDirectoryStructure pipeFs fuel "root" true = none) :=
  ⟨⟨rfl, by decide, by decide⟩, by decide, rfl, pipeFs_never_returns⟩

theorem lockedFs_answers : ReadsAnswer lockedFs "root" := by
  intro p _
  simp only [FileSystem.files, lockedFs]
  split_ifs <;> simp

theorem lockedFs_bounded : PathsBounded lockedFs 12 "root" := by
  intro p _ hlen
  have h1 : p ≠ "root" := by rintro rfl; exact absurd hlen (by decide)
  have h2 : p ≠ "root/docs" := by rintro rfl; exact absurd hlen (by decide)
  simp only [FileSystem.files, lockedFs, h1, h2, if_false]
  split_ifs <;> rfl

/-- C7, amended: a failed directory read never aborts the listing.  The walk
of a directory whose read fails returns the empty sequence, and a filesystem
with an unreadable directory `U` gives, for every root, the result it would
give with `U` readable and empty.  For a readable directory `D` holding `U`,
when every directory read of a path under `D` returns and the system refuses
the paths of more than `L` characters, `readDirectoryStructure D true` returns
one entry per child of `D` in order, that of `U` without children.  (The
function is not total: a read that never returns keeps the walk from
returning.) -/
theorem read_failure_never_aborts (fs : FileSystem) (L : Nat) (D : String)
    (files : List FileInfo) (U : FileInfo) (err : String)
    (hD : fs.ReadDir D = .ok files) (hU : U ∈ files)
    (hErr : fs.ReadDir (D ++ "/" ++ U.Name) = .error err)
    (hAns : ReadsAnswer fs D) (hL : PathsBounded fs L D) :
    (∀ fuel recursive,
      readDirectoryStructure fs (fuel + 1) (D ++ "/" ++ U.Name) recursive = some Slice.null) ∧
    (∀ fuel root recursive, readDirectoryStructure fs fuel root recursive =
      readDirectoryStructure (fs.withEmptyDir (D ++ "/" ++ U.Name)) fuel root recursive) ∧
    ∃ t, (∀ m, L + 2 ≤ m → readDirectoryStructure fs m D true = some t ∧
        readDirectoryStructure (fs.withEmptyDir (D ++ "/" ++ U.Name)) m D true = some t) ∧
      t.len = files.length ∧
      List.Forall₂ (fun f e => e.Name = f.Name ∧ e.IsDir = f.IsDir ∧
        (f.Name = U.Name → e.Children.len = 0)) files t.elems ∧
      ∃ e ∈ t.elems, e.Name = U.Name ∧ e.IsDir = U.IsDir ∧ e.Children.len = 0 := by
  have hfiles : fs.files D = some files := by simp [FileSystem.files, hD]
  have hUfiles : fs.files (D ++ "/" ++ U.Name) = some [] := by simp [FileSystem.files, hErr]
  have hcongr : ∀ fuel root recursive, readDirectoryStructure fs fuel root recursive =
      readDirectoryStructure (fs.withEmptyDir (D ++ "/" ++ U.Name)) fuel root recursive :=
    fun fuel root recursive =>
      walk_congr fs _ (withEmptyDir_files fs _ err hErr) (withEmptyDir_linkedTo fs _)
        recursive fuel root
  refine ⟨?_, hcongr, ?_⟩
  · intro fuel recursive
    simp [readDirectoryStructure, hUfiles, readLoop]
  · obtain ⟨t, ht⟩ := walk_returns_of_bounded fs L D hAns hL true
    have hF : List.Forall₂ (fun f e => e.Name = f.Name ∧ e.IsDir = f.IsDir ∧
        (f.Name = U.Name → e.Children.len = 0)) files t.elems := by
      obtain ⟨files2, cs, hf2, hcs, hts⟩ := (walk_succ_iff fs (L + 1) D true t).mp ht
      rw [hfiles] at hf2
      cases hf2
      subst hts
      rw [Slice.elems_ofList]
      refine forall₂_zipWith _ _ _ ?_ _ _ hcs
      intro f c hfc
      simp only [if_true] at hfc
      refine ⟨rfl, rfl, fun hname => ?_⟩
      rw [hname] at hfc
      have := walk_files_nil fs (L + 1) _ true c hfc hUfiles
      simp [childEntry, FileList.Children, this, Slice.len, Slice.elems]
    refine ⟨t, ?_, walk_len fs _ D true t files ht hfiles, hF, ?_⟩
    · intro m hm
      have htm := walk_mono fs true _ m hm D t ht
      exact ⟨htm, by rw [← hcongr]; exact htm⟩
    · obtain ⟨e, he, h1, h2, h3⟩ := forall₂_exists_of_mem _ _ _ hF U hU
      exact ⟨e, he, h1, h2, h3 rfl⟩

/-- C7 on a directory holding a readable directory, an unreadable one and a
file. -/
theorem read_failure_never_aborts_witness :
    lockedFs.ReadDir "root" =
      .ok [⟨"docs", 4096, ModeDir, ⟨100, 2024⟩, true⟩,
        ⟨"locked", 4096, ModeDir, ⟨200, 2024⟩, true⟩, ⟨"z.txt", 3, 0, ⟨300, 2024⟩, false⟩] ∧
    lockedFs.ReadDir "root/locked" = .error "open root/locked: permission denied" ∧
    ReadsAnswer lockedFs "root" ∧ PathsBounded lockedFs 12 "root" ∧
    readDirectoryStructure lockedFs 14 "root" true =
      some (.mk [.mk ⟨100, 2024⟩ false true "" 4096 "docs"
          (.mk [.mk ⟨400, 2024⟩ false false "" 12 "n.txt" .null]),
        .mk ⟨200, 2024⟩ false true "" 4096 "locked" .null,
        .mk ⟨300, 2024⟩ false false "" 3 "z.txt" .null]) ∧
    ∃ t, (∀ m, 12 + 2 ≤ m → readDirectoryStructure lockedFs m "root" true = some t ∧
        readDirectoryStructure (lockedFs.withEmptyDir ("root" ++ "/" ++ "locked")) m "root"
          true = some t) ∧
      t.len = 3 ∧
      ∃ e ∈ t.elems, e.Name = "locked" ∧ e.IsDir = true ∧ e.Children.len = 0 :=
  have h := read_failure_never_aborts lockedFs 12 "root" _
    ⟨"locked", 4096, ModeDir, ⟨200, 2024⟩, true⟩
    "open root/locked: permission denied" rfl (by simp) rfl lockedFs_answers lockedFs_bounded
  ⟨rfl, rfl, lockedFs_answers, lockedFs_bounded, rfl,
    h.2.2.imp (fun _ ht => ⟨ht.1, ht.2.1, ht.2.2.2⟩)⟩

/-- C7 fails as stated: `root/` is readable and holds the unreadable directory
`locked/`, and beside it a named pipe; the walk reads `locked/` as empty and
then opens the pipe, which never returns, so `readDirectoryStructure` returns
no entry at all, whatever the bound on the nesting of calls. -/
theorem read_failure_counterexample :
    pipeFs.ReadDir "root" =
      .ok [⟨"locked", 4096, ModeDir, ⟨200, 2024⟩, true⟩,
        ⟨"queue", 0, ModeNamedPipe, ⟨300, 2024⟩, false⟩] ∧
    pipeFs.ReadDir "root/locked" = .error "open root/locked: permission denied" ∧
    (∀ fuel, readDirectoryStructure pipeFs (fuel + 1) "root/locked" true = some Slice.null) ∧
    pipeFs.ReadDir "root/queue" = .blocks ∧
    ∀ fuel, readDirectoryStructure pipeFs fuel "root" true = none :=
  ⟨rfl, rfl, fun _ => rfl, rfl, pipeFs_never_returns⟩

/-! ## The renderers -/

theorem stringsRepeat_spaces (d : Nat) :
    stringsRepeat "  " d = String.mk (List.replicate (2 * d) ' ') := by
  induction d with
  | zero => rfl
  | succ n ih =>
    rw [stringsRepeat, ih]
    apply String.ext
    simp only [String.data_append]
    have : 2 * (n + 1) = (2 * n + 1) + 1 := by omega
    rw [this, List.replicate_succ, List.replicate_succ]
    rfl

mutual
theorem printAsTextEntry_preorder (f : FileList) (k d : Nat) :
    printAsTextEntry f (k + d) = (preorderEntry f k).map
      (fun ke => stringsRepeat "  " (ke.1 + d) ++ displayName ke.2 ++ "\n") := by
  cases f with
  | mk t l dir lt s n c =>
    have h := printAsText_preorder c (k + 1) d
    have e : k + 1 + d = k + d + 1 := by omega
    rw [e] at h
    simp [printAsTextEntry, preorderEntry, h]
theorem printAsText_preorder (t : Slice FileList) (k d : Nat) :
    printAsText t (k + d) = (preorder t k).map
      (fun ke => stringsRepeat "  " (ke.1 + d) ++ displayName ke.2 ++ "\n") := by
  cases t with
  | null => simp [printAsText, preorder]
  | mk files => simpa [printAsText, preorder] using printAsTextLoop_preorder files k d
theorem printAsTextLoop_preorder (files : List FileList) (k d : Nat) :
    printAsTextLoop files (k + d) = (preorderList files k).map
      (fun ke => stringsRepeat "  " (ke.1 + d) ++ displayName ke.2 ++ "\n") := by
  cases files with
  | nil => simp [printAsTextLoop, preorderList]
  | cons f rest =>
    simp [printAsTextLoop, preorderList, printAsTextEntry_preorder f k d,
      printAsTextLoop_preorder rest k d]
end

/-- C8: `printText` prints the path and then calls `printAsText` at depth 1,
and for every tree the line of an entry that lies `k` nested `Children` lists
below the top-level list is `2 * (k + 1)` spaces, then its name with suffixes. -/
theorem printAsText_indentation (files : Slice FileList) :
    printAsText files 1 = (preorder files 0).map
      (fun ke => String.mk (List.replicate (2 * (ke.1 + 1)) ' ') ++ displayName ke.2 ++ "\n") ∧
    ∀ (fs : FileSystem) (fuel : Nat) (path : String) (recursive : Bool),
      printText fs fuel path recursive =
        (readDirectoryStructure fs fuel path recursive).map
          (fun t => (path ++ "\n") :: printAsText t 1) := by
  constructor
  · have h := printAsText_preorder files 0 1
    simp only [Nat.zero_add, stringsRepeat_spaces] at h
    exact h
  · intro fs fuel path recursive
    unfold printText
    cases readDirectoryStructure fs fuel path recursive <;> rfl

/-- C9: for every tree and depth, `printAsText` writes exactly one line per
entry, in depth-first pre-order, and the text after the indentation is the name,
then `/` if the entry is a directory, then `* (` target `)` if it is a link. -/
theorem printAsText_lines (files : Slice FileList) (depth : Nat) :
    (printAsText files depth).length = (preorder files 0).length ∧
    printAsText files depth = (preorder files 0).map
      (fun ke => stringsRepeat "  " (ke.1 + depth) ++
        ((ke.2.Name ++ (if ke.2.IsDir = true then "/" else "")) ++
          (if ke.2.IsLink = true then "* (" ++ ke.2.LinksTo ++ ")" else "")) ++ "\n") := by
  have h := printAsText_preorder files 0 depth
  rw [Nat.zero_add] at h
  have hname : ∀ e : FileList, displayName e =
      (e.Name ++ (if e.IsDir = true then "/" else "")) ++
        (if e.IsLink = true then "* (" ++ e.LinksTo ++ ")" else "") := by
    intro e
    unfold displayName
    cases e.IsDir <;> cases e.IsLink <;>
      simp only [if_true, if_false, Bool.false_eq_true, String.append_assoc, String.append_empty]
  refine ⟨by rw [h, List.length_map], ?_⟩
  rw [h]
  apply List.map_congr_left
  intro ke _
  rw [hname]

/-- The text written for the scenario of the specification, read recursively. -/
theorem printText_scenario :
    printText scenarioFs 3 "root" true =
      some ["root\n", "  a.txt\n", "  b/\n", "    c.txt\n"] := by
  decide

/-- The text written for a directory holding a symbolic link to a directory:
the link is marked and the entries of its target are listed below it. -/
theorem printText_link :
    printText linkFs 4 "root" true =
      some ["root\n", "  L* (/srv/data)\n", "    S/\n", "      y\n"] := by
  decide

theorem marshalTime_isSome (t : Time) : (marshalTime t).isSome = true ↔ t.Encodable := by
  unfold marshalTime Time.Encodable
  split_ifs with h <;> simp [h]

mutual
theorem marshalFileList_isSome (e : FileList) (dir : String) :
    (marshalFileList e).isSome = true ↔
      ∀ pe ∈ entryPaths e dir, pe.2.ModifiedTime.Encodable := by
  cases e with
  | mk t l d lt s n c =>
    have ih := marshalSlice_isSome c (dir ++ "/" ++ n)
    have ht := marshalTime_isSome t
    have hm : (marshalFileList (.mk t l d lt s n c)).isSome = true ↔
        ((marshalTime t).isSome = true ∧ (marshalSlice c).isSome = true) := by
      simp only [marshalFileList]
      cases marshalTime t <;> cases marshalSlice c <;> simp
    rw [hm, ht, ih]
    simp only [entryPaths, List.mem_cons]
    constructor
    · rintro ⟨h1, h2⟩ pe (rfl | hpe)
      · exact h1
      · exact h2 pe hpe
    · intro h
      exact ⟨h _ (Or.inl rfl), fun pe hpe => h pe (Or.inr hpe)⟩
theorem marshalSlice_isSome (t : Slice FileList) (dir : String) :
    (marshalSlice t).isSome = true ↔
      ∀ pe ∈ slicePaths t dir, pe.2.ModifiedTime.Encodable := by
  cases t with
  | null => simp [marshalSlice, slicePaths]
  | mk files =>
    have ih := marshalList_isSome files dir
    have hm : (marshalSlice (.mk files)).isSome = true ↔ (marshalList files).isSome = true := by
      simp only [marshalSlice]
      cases marshalList files <;> simp
    rw [hm, ih]
    simp only [slicePaths]
theorem marshalList_isSome (files : List FileList) (dir : String) :
    (marshalList files).isSome = true ↔
      ∀ pe ∈ listPaths files dir, pe.2.ModifiedTime.Encodable := by
  cases files with
  | nil => simp [marshalList, listPaths]
  | cons f rest =>
    have ih1 := marshalFileList_isSome f dir
    have ih2 := marshalList_isSome rest dir
    have hm : (marshalList (f :: rest)).isSome = true ↔
        ((marshalFileList f).isSome = true ∧ (marshalList rest).isSome = true) := by
      simp only [marshalList]
      cases marshalFileList f <;> cases marshalList rest <;> simp
    rw [hm, ih1, ih2]
    simp only [listPaths, List.mem_append]
    constructor
    · rintro ⟨h1, h2⟩ pe (hpe | hpe)
      · exact h1 pe hpe
      · exact h2 pe hpe
    · intro h
      exact ⟨fun pe hpe => h pe (Or.inl hpe), fun pe hpe => h pe (Or.inr hpe)⟩
end

theorem marshalFileList_childless (e : FileList) (hyear : e.ModifiedTime.Encodable)
    (hnil : e.Children = Slice.null) :
    ∃ j, marshalFileList e = some j ∧ j.member "Children" = some JSON.null := by
  cases e with
  | mk t l d lt s n c =>
    simp only [FileList.Children] at hnil
    simp only [FileList.ModifiedTime, Time.Encodable] at hyear
    subst hnil
    have hm : marshalTime t = some (.time t) := by simp [marshalTime, hyear]
    refine ⟨.object [("ModifiedTime", .time t), ("IsLink", .bool l), ("IsDir", .bool d),
      ("LinksTo", .string lt), ("Size", .number s), ("Name", .string n),
      ("Children", .null)], ?_, rfl⟩
    simp only [marshalFileList, hm, marshalSlice]

/-- C10, amended: in the slice that `readDirectoryStructure` returns, for both
values of `recursive`, the `Children` of an entry without children is the nil
slice.  When every modification time in the tree has a year from 0 to 9999,
`printJson` writes the encoding of that slice, in which every entry with no
children has the member `Children` with the value null (present, and never an
empty array), and a listing without entries is the document null.  When some
modification time has a year outside of that range the encoding fails and
`printJson` writes an empty line, no document. -/
theorem json_childless_is_null (fs : FileSystem) (fuel : Nat) (path : String)
    (recursive : Bool) (t : Slice FileList)
    (h : readDirectoryStructure fs fuel path recursive = some t) :
    (∀ pe ∈ slicePaths t path, pe.2.Children.len = 0 → pe.2.Children = Slice.null) ∧
    ((∀ pe ∈ slicePaths t path, pe.2.ModifiedTime.Encodable) →
      ∃ doc, printJson fs fuel path recursive = some (.document doc) ∧
        marshalSlice t = some doc ∧
        (t.len = 0 → doc = JSON.null) ∧
        ∀ pe ∈ slicePaths t path, pe.2.Children.len = 0 →
          ∃ j, marshalFileList pe.2 = some j ∧ j.member "Children" = some JSON.null) ∧
    ((∃ pe ∈ slicePaths t path, ¬ pe.2.ModifiedTime.Encodable) →
      printJson fs fuel path recursive = some .emptyLine) := by
  have key : ∀ pe ∈ slicePaths t path,
      pe.2.Children.len = 0 → pe.2.Children = Slice.null := by
    refine walk_entries_forall fs recursive path
      (fun _ e => e.Children.len = 0 → e.Children = Slice.null) ?_ fuel path t Below.self h
    intro fuel p files f c _ _ _ hc h0
    cases recursive
    · simp only [Bool.false_eq_true, if_false] at hc
      exact hc
    · simp only [if_true] at hc
      exact walk_len_zero fs fuel _ true c hc h0
  refine ⟨key, ?_, ?_⟩
  · intro hyears
    have hsome := (marshalSlice_isSome t path).mpr hyears
    obtain ⟨doc, hdoc⟩ := Option.isSome_iff_exists.mp hsome
    refine ⟨doc, by simp [printJson, h, hdoc], hdoc, ?_, ?_⟩
    · intro h0
      rw [walk_len_zero fs fuel path recursive t h h0] at hdoc
      exact (Option.some.inj hdoc).symm
    · intro pe hpe h0
      exact marshalFileList_childless pe.2 (hyears pe hpe) (key pe hpe h0)
  · intro hbad
    have hnone : marshalSlice t = none := by
      cases hm : marshalSlice t with
      | none => rfl
      | some doc =>
        have hall := (marshalSlice_isSome t path).mp (by simp [hm])
        obtain ⟨pe, hpe, hno⟩ := hbad
        exact absurd (hall pe hpe) hno
    simp [printJson, h, hnone]

/-- C10 on the scenario of the specification, read recursively. -/
theorem json_childless_is_null_witness :
    readDirectoryStructure scenarioFs 3 "root" true =
      some (.mk [.mk ⟨100, 2024⟩ false false "" 10 "a.txt" .null,
        .mk ⟨200, 2024⟩ false true "" 4096 "b"
          (.mk [.mk ⟨300, 2024⟩ false false "" 5 "c.txt" .null])]) ∧
    printJson scenarioFs 3 "root" true =
      some (.document (.array [
        .object [("ModifiedTime", .time ⟨100, 2024⟩), ("IsLink", .bool false),
          ("IsDir", .bool false), ("LinksTo", .string ""), ("Size", .number 10),
          ("Name", .string "a.txt"), ("Children", .null)],
        .object [("ModifiedTime", .time ⟨200, 2024⟩), ("IsLink", .bool false),
          ("IsDir", .bool true), ("LinksTo", .string ""), ("Size", .number 4096),
          ("Name", .string "b"),
          ("Children", .array [
            .object [("ModifiedTime", .time ⟨300, 2024⟩), ("IsLink", .bool false),
              ("IsDir", .bool false), ("LinksTo", .string ""), ("Size", .number 5),
              ("Name", .string "c.txt"), ("Children", .null)]])]])) ∧
    ∃ doc, printJson scenarioFs 3 "root" true = some (.document doc) ∧
      ∀ pe ∈ slicePaths (.mk [.mk ⟨100, 2024⟩ false false "" 10 "a.txt" .null,
          .mk ⟨200, 2024⟩ false true "" 4096 "b"
            (.mk [.mk ⟨300, 2024⟩ false false "" 5 "c.txt" .null])]) "root",
        pe.2.Children.len = 0 →
          ∃ j, marshalFileList pe.2 = some j ∧ j.member "Children" = some JSON.null :=
  have hyears : ∀ pe ∈ slicePaths (.mk [.mk ⟨100, 2024⟩ false false "" 10 "a.txt" .null,
      .mk ⟨200, 2024⟩ false true "" 4096 "b"
        (.mk [.mk ⟨300, 2024⟩ false false "" 5 "c.txt" .null])]) "root",
      pe.2.ModifiedTime.Encodable := by
    intro pe hpe
    simp only [slicePaths, listPaths, entryPaths, List.append_nil, List.cons_append,
      List.nil_append, List.mem_cons, List.not_mem_nil, or_false] at hpe
    rcases hpe with rfl | rfl | rfl <;>
      exact ⟨by decide, by decide⟩
  ⟨rfl, rfl,
    ((json_childless_is_null scenarioFs 3 "root" true _ rfl).2.1 hyears).imp
      (fun _ hd => ⟨hd.1, hd.2.2.2⟩)⟩

/-- The encoding of a listing fails on a modification time in the year 10000,
and `printJson` writes an empty line. -/
theorem printJson_future : printJson futureFs 1 "root" false = some .emptyLine := by
  rfl

/-- C10 fails as stated: without recursion the document for the scenario of the
specification gives both entries the member `Children` with the value null,
which is not the empty array. -/
theorem json_children_counterexample :
    printJson scenarioFs 1 "root" false =
      some (.document (.array [
        .object [("ModifiedTime", .time ⟨100, 2024⟩), ("IsLink", .bool false),
          ("IsDir", .bool false), ("LinksTo", .string ""), ("Size", .number 10),
          ("Name", .string "a.txt"), ("Children", .null)],
        .object [("ModifiedTime", .time ⟨200, 2024⟩), ("IsLink", .bool false),
          ("IsDir", .bool true), ("LinksTo", .string ""), ("Size", .number 4096),
          ("Name", .string "b"), ("Children", .null)]])) ∧
    JSON.null ≠ JSON.array [] :=
  ⟨rfl, fun h => JSON.noConfusion h⟩

end Mmlister
